import Mathlib

/-!
Verification development for the declarative cloud-provisioning repository.

The repository source (`pulumi.py`) declares a resource topology (resource
group, storage account, static website, virtual network, subnet, NIC, VM,
SQL server, SQL database), reads configuration values, and exports outputs,
two of them marked secret.  The specification additionally describes a
minimal Resource Graph Builder (declare / property_of / export / build_plan /
resolve) that the script implicitly relies on; that component is not part of
the repository source, so it is modelled here from the specification's words.
The concrete resource graph, the configuration reads, and the connection
string are embedded directly from `pulumi.py`.
-/

/-- A property value of a resource declaration: either a literal, or a
deferred reference `ref r p` to output property `p` of resource `r`. -/
inductive PropValue where
  | lit : String → PropValue
  | ref : String → String → PropValue
deriving DecidableEq, Repr

/-- A declared resource: logical name, type tag, and property mapping. -/
structure Resource where
  name : String
  rtype : String
  props : List (String × PropValue)
deriving DecidableEq, Repr

/-- Names of resources referenced by the deferred values of `r`'s properties. -/
def refsOf (r : Resource) : List String :=
  r.props.filterMap fun kv =>
    match kv.2 with
    | PropValue.ref n _ => some n
    | PropValue.lit _ => none

/-- The dependencies of `r` among the declared resource names `allNames`. -/
def depsIn (allNames : List String) (r : Resource) : List String :=
  (refsOf r).filter fun n => decide (n ∈ allNames)

/-- `r` is ready once all of its declared dependencies have been emitted. -/
def ready (allNames emitted : List String) (r : Resource) : Bool :=
  (depsIn allNames r).all fun d => decide (d ∈ emitted)

/-- Errors of plan construction. -/
inductive BuildError where
  | cycleError : List String → BuildError
deriving DecidableEq, Repr

/-- Extract the first (declaration-order) ready resource from the pending
list, together with the remaining pending resources. -/
def extractReady (allNames emitted : List String) :
    List Resource → Option (Resource × List Resource)
  | [] => none
  | r :: rest =>
    if ready allNames emitted r then some (r, rest)
    else
      match extractReady allNames emitted rest with
      | none => none
      | some (x, l) => some (x, r :: l)

/-- Modelled from the spec: the core loop of `build_plan`, a deterministic
topological sort (Kahn's algorithm with declaration-order tie-break) over the
declared resources, using deferred-value references as edges; when no pending
resource is ready it fails with `CycleError` naming the remaining resources.
`build_plan` itself is described by the spec but absent from `src/`. -/
def buildPlanGo (allNames : List String) :
    Nat → List Resource → List String → Except BuildError (List Resource)
  | _, [], _ => Except.ok []
  | 0, r :: rest, _ =>
      Except.error (BuildError.cycleError ((r :: rest).map Resource.name))
  | Nat.succ fuel, r :: rest, emitted =>
    match extractReady allNames emitted (r :: rest) with
    | none => Except.error (BuildError.cycleError ((r :: rest).map Resource.name))
    | some (x, others) =>
      match buildPlanGo allNames fuel others (emitted ++ [x.name]) with
      | Except.ok plan => Except.ok (x :: plan)
      | Except.error e => Except.error e

/-- Modelled from the spec: `build_plan() -> ExecutionPlan` performs a
topological sort over all declared resources. -/
def buildPlan (decls : List Resource) : Except BuildError (List Resource) :=
  buildPlanGo (decls.map Resource.name) decls.length decls []

/-- A list of resources is well ordered when, walking it front to back, the
declared dependencies of every resource are all among the names emitted
before it (`emitted` holds the names already placed earlier). -/
def GoodOrder (allNames : List String) : List String → List Resource → Prop
  | _, [] => True
  | emitted, r :: rest =>
      (∀ d ∈ depsIn allNames r, d ∈ emitted) ∧
        GoodOrder allNames (emitted ++ [r.name]) rest

/-- `a` depends on `b`: some declared resource named `a` has `b` among its
declared dependencies. -/
def dependsOn (decls : List Resource) (a b : String) : Bool :=
  decls.any fun t =>
    decide (t.name = a) && decide (b ∈ depsIn (decls.map Resource.name) t)

/-- The reference graph of the declarations contains a directed cycle:
a declared name `x` and a chain of dependency edges leading from `x` back
to `x`. -/
def HasCycle (decls : List Resource) : Prop :=
  ∃ x c, (∀ m ∈ x :: c, m ∈ decls.map Resource.name) ∧
    List.Chain (fun a b => dependsOn decls a b = true) x (c ++ [x])

theorem extractReady_eq_none {allNames emitted : List String} :
    ∀ {pending : List Resource},
      extractReady allNames emitted pending = none →
      ∀ r ∈ pending, ready allNames emitted r = false := by
  intro pending
  induction pending with
  | nil => intro _ r hr; cases hr
  | cons a rest ih =>
    intro h r hr
    by_cases ha : ready allNames emitted a = true
    · simp [extractReady, ha] at h
    · rcases List.mem_cons.mp hr with rfl | hr
      · simpa using ha
      · rcases hrest : extractReady allNames emitted rest with _ | ⟨x, l⟩
        · exact ih hrest r hr
        · simp [extractReady, ha, hrest] at h

theorem extractReady_eq_some {allNames emitted : List String} :
    ∀ {pending : List Resource} {x : Resource} {others : List Resource},
      extractReady allNames emitted pending = some (x, others) →
      ready allNames emitted x = true ∧
        ∃ l₁ l₂, pending = l₁ ++ x :: l₂ ∧ others = l₁ ++ l₂ := by
  intro pending
  induction pending with
  | nil => intro x others h; simp [extractReady] at h
  | cons a rest ih =>
    intro x others h
    by_cases ha : ready allNames emitted a = true
    · simp only [extractReady, ha, if_pos, Option.some.injEq, Prod.mk.injEq] at h
      rcases h with ⟨rfl, rfl⟩
      exact ⟨ha, [], rest, rfl, rfl⟩
    · rcases hrest : extractReady allNames emitted rest with _ | ⟨y, l⟩
      · simp [extractReady, ha, hrest] at h
      · simp only [extractReady, ha, if_neg, hrest, Option.some.injEq, Prod.mk.injEq,
          Bool.false_eq_true] at h
        rcases h with ⟨rfl, rfl⟩
        rcases ih hrest with ⟨hready, l₁, l₂, rfl, rfl⟩
        exact ⟨hready, a :: l₁, l₂, rfl, rfl⟩

theorem chain_rank_lt {rank : String → Nat} :
    ∀ (l : List String) (x : String),
      List.Chain (fun a b => rank b < rank a) x l → ∀ y ∈ l, rank y < rank x := by
  intro l
  induction l with
  | nil => intro x _ y hy; cases hy
  | cons b t ih =>
    intro x hch y hy
    rcases List.chain_cons.mp hch with ⟨hxb, hbt⟩
    rcases List.mem_cons.mp hy with rfl | hy
    · exact hxb
    · exact lt_trans (ih b hbt y hy) hxb

/-- A rank function that strictly increases along dependency edges rules out
reference cycles. -/
theorem no_cycle_of_rank (decls : List Resource) (rank : String → Nat)
    (hr : ∀ r ∈ decls, ∀ d ∈ depsIn (decls.map Resource.name) r,
      rank d < rank r.name) :
    ¬ HasCycle decls := by
  rintro ⟨x, c, _, hchain⟩
  have himp : ∀ a b : String, dependsOn decls a b = true → rank b < rank a := by
    intro a b hab
    rcases List.any_eq_true.mp hab with ⟨t, ht, hprop⟩
    rcases Bool.and_eq_true_iff.mp hprop with ⟨h1, h2⟩
    have h1' : t.name = a := of_decide_eq_true h1
    have h2' : b ∈ depsIn (decls.map Resource.name) t := of_decide_eq_true h2
    have := hr t ht b h2'
    rwa [h1'] at this
  have hchain' : List.Chain (fun a b => rank b < rank a) x (c ++ [x]) :=
    hchain.imp himp
  exact lt_irrefl _ (chain_rank_lt (c ++ [x]) x hchain' x (by simp))

theorem chain_cycle_succ {R : String → String → Prop} :
    ∀ (l : List String) (x z : String), List.Chain R x (l ++ [z]) →
      ∀ m ∈ x :: l, ∃ m' ∈ (x :: l) ++ [z], R m m' := by
  intro l
  induction l with
  | nil =>
    intro x z hch m hm
    rcases List.mem_cons.mp hm with rfl | hm
    · exact ⟨z, by simp, List.chain_singleton.mp hch⟩
    · cases hm
  | cons y l' ih =>
    intro x z hch m hm
    rcases List.chain_cons.mp hch with ⟨hxy, hrest⟩
    rcases List.mem_cons.mp hm with rfl | hm
    · exact ⟨y, by simp, hxy⟩
    · rcases ih y z hrest m hm with ⟨m', hm', hr⟩
      refine ⟨m', ?_, hr⟩
      rcases List.mem_append.mp hm' with h | h
      · exact List.mem_append.mpr (Or.inl (List.mem_cons_of_mem x h))
      · exact List.mem_append.mpr (Or.inr h)

/-- Every participant of a cycle depends on another participant. -/
theorem cycle_succ {decls : List Resource} {x : String} {c : List String}
    (hchain : List.Chain (fun a b => dependsOn decls a b = true) x (c ++ [x])) :
    ∀ m ∈ x :: c, ∃ m' ∈ x :: c, dependsOn decls m m' = true := by
  intro m hm
  rcases chain_cycle_succ c x x hchain m hm with ⟨m', hm', hr⟩
  rcases List.mem_append.mp hm' with h | h
  · exact ⟨m', h, hr⟩
  · rcases List.mem_singleton.mp h with rfl
    exact ⟨m', List.mem_cons_self _ _, hr⟩

/-- If every pending resource is blocked on another pending resource, the
declarations contain a reference cycle. -/
theorem cycle_of_all_blocked (decls pending : List Resource)
    (hne : pending ≠ [])
    (hsub : ∀ r ∈ pending, r ∈ decls)
    (hblk : ∀ r ∈ pending,
      ∃ s ∈ pending, s.name ∈ depsIn (decls.map Resource.name) r) :
    HasCycle decls := by
  classical
  have hch : ∀ p : {r : Resource // r ∈ pending},
      ∃ s : {r : Resource // r ∈ pending},
        s.1.name ∈ depsIn (decls.map Resource.name) p.1 := by
    intro p
    rcases hblk p.1 p.2 with ⟨s, hs, hd⟩
    exact ⟨⟨s, hs⟩, hd⟩
  choose F hF using hch
  rcases hpend : pending with _ | ⟨r0, rest0⟩
  · exact absurd hpend hne
  have hr0 : r0 ∈ pending := by rw [hpend]; exact List.mem_cons_self _ _
  set x0 : {r : Resource // r ∈ pending} := ⟨r0, hr0⟩ with hx0
  set seq : Nat → {r : Resource // r ∈ pending} := fun n => F^[n] x0 with hseqdef
  have hstep : ∀ n, (seq (n + 1)).1.name ∈
      depsIn (decls.map Resource.name) (seq n).1 := by
    intro n
    have h1 : seq (n + 1) = F (seq n) := by
      simp only [hseqdef]
      exact Function.iterate_succ_apply' F n x0
    rw [h1]
    exact hF (seq n)
  set N : Nat := pending.length with hN
  have hNpos : 0 < N := by rw [hN, hpend]; simp
  have hg : ∀ k : Nat, List.indexOf (seq k).1 pending < N :=
    fun k => List.indexOf_lt_length.mpr (seq k).2
  obtain ⟨i, j, hij, hgij⟩ :=
    Fintype.exists_ne_map_eq_of_card_lt
      (fun k : Fin (N + 1) => (⟨List.indexOf (seq k.val).1 pending, hg k.val⟩ : Fin N))
      (by simp)
  have key : ∀ i j : Fin (N + 1), (i : Nat) < (j : Nat) →
      List.indexOf (seq i.val).1 pending = List.indexOf (seq j.val).1 pending →
      HasCycle decls := by
    intro i j hlt hidx
    have hseqeq : seq i.val = seq j.val := by
      apply Subtype.ext
      exact (List.indexOf_inj (seq i.val).2 (seq j.val).2).mp hidx
    set g' : Nat → String := fun n => (seq (i.val + n)).1.name with hg'
    have hedge : ∀ n, dependsOn decls (g' n) (g' (n + 1)) = true := by
      intro n
      apply List.any_eq_true.mpr
      refine ⟨(seq (i.val + n)).1, hsub _ (seq (i.val + n)).2, ?_⟩
      rw [Bool.and_eq_true]
      constructor
      · exact decide_eq_true rfl
      · exact decide_eq_true (hstep (i.val + n))
    obtain ⟨m, hm⟩ : ∃ m, (j : Nat) - (i : Nat) = m + 1 :=
      ⟨(j : Nat) - (i : Nat) - 1,
        (Nat.succ_pred_eq_of_pos (Nat.sub_pos_of_lt hlt)).symm⟩
    have hij' : (i : Nat) + (m + 1) = (j : Nat) := by omega
    have hclose : g' (m + 1) = g' 0 := by
      simp only [hg', Nat.add_zero, hij', hseqeq]
    have hmemg : ∀ n : Nat, g' n ∈ decls.map Resource.name := by
      intro n
      exact List.mem_map_of_mem Resource.name (hsub _ (seq (i.val + n)).2)
    have hchain0 : List.Chain' (fun a b => dependsOn decls a b = true)
        ((List.range (m + 1 + 1)).map g') := by
      apply (List.chain'_map g').mpr
      exact (List.chain'_range_succ _ (m + 1)).mpr fun n _ => hedge n
    have hrw : (List.range (m + 1 + 1)).map g' =
        g' 0 :: (((List.range m).map (g' ∘ Nat.succ)) ++ [g' 0]) := by
      rw [List.range_succ_eq_map, List.map_cons, List.map_map]
      congr 1
      rw [List.range_succ, List.map_append]
      congr 1
      · simp [hclose]
    rw [hrw] at hchain0
    refine ⟨g' 0, (List.range m).map (g' ∘ Nat.succ), ?_, ?_⟩
    · intro mm hmm
      rcases List.mem_cons.mp hmm with rfl | hmm
      · exact hmemg 0
      · rcases List.mem_map.mp hmm with ⟨n, _, rfl⟩
        exact hmemg (n + 1)
    · exact hchain0
  rcases lt_or_gt_of_ne hij with h | h
  · exact key i j h (congrArg Fin.val hgij)
  · exact key j i h (congrArg Fin.val hgij.symm)

theorem buildPlanGo_ok_of_acyclic (decls : List Resource)
    (hnc : ¬ HasCycle decls) :
    ∀ fuel pending emitted, pending.length ≤ fuel →
      (∀ r ∈ pending, r ∈ decls) →
      (∀ d ∈ decls.map Resource.name, d ∉ emitted →
        d ∈ pending.map Resource.name) →
      ∃ plan,
        buildPlanGo (decls.map Resource.name) fuel pending emitted =
          Except.ok plan ∧
        plan.Perm pending ∧ GoodOrder (decls.map Resource.name) emitted plan := by
  intro fuel
  induction fuel with
  | zero =>
    intro pending emitted hlen _ _
    have hpe : pending = [] := List.length_eq_zero.mp (Nat.le_zero.mp hlen)
    subst hpe
    exact ⟨[], rfl, List.Perm.refl _, trivial⟩
  | succ fuel ih =>
    intro pending emitted hlen hsub hcover
    rcases hp : pending with _ | ⟨r, rest⟩
    · exact ⟨[], rfl, List.Perm.refl _, trivial⟩
    · subst hp
      rcases hext : extractReady (decls.map Resource.name) emitted (r :: rest)
        with _ | ⟨x, others⟩
      · exfalso
        apply hnc
        apply cycle_of_all_blocked decls (r :: rest) (by simp) hsub
        intro rr hrr
        have hnotready := extractReady_eq_none hext rr hrr
        have hex : ∃ d ∈ depsIn (decls.map Resource.name) rr, d ∉ emitted := by
          by_contra hall
          push_neg at hall
          have hrdy : ready (decls.map Resource.name) emitted rr = true := by
            unfold ready
            rw [List.all_eq_true]
            intro d hd
            exact decide_eq_true (hall d hd)
          rw [hrdy] at hnotready
          cases hnotready
        rcases hex with ⟨d, hd, hdne⟩
        have hdall : d ∈ decls.map Resource.name :=
          of_decide_eq_true (List.mem_filter.mp hd).2
        have hdpend : d ∈ (r :: rest).map Resource.name := hcover d hdall hdne
        rcases List.mem_map.mp hdpend with ⟨s, hs, rfl⟩
        exact ⟨s, hs, hd⟩
      · rcases extractReady_eq_some hext with ⟨hready, l₁, l₂, hpeq, hoeq⟩
        have hlen1 : (r :: rest).length = others.length + 1 := by
          rw [hpeq, hoeq]
          simp [List.length_append]
          omega
        have hlen' : others.length ≤ fuel := by
          have := hlen
          rw [hlen1] at this
          omega
        have hsub' : ∀ rr ∈ others, rr ∈ decls := by
          intro rr hrr
          apply hsub
          rw [hpeq]
          rw [hoeq] at hrr
          rcases List.mem_append.mp hrr with h | h
          · exact List.mem_append.mpr (Or.inl h)
          · exact List.mem_append.mpr (Or.inr (List.mem_cons_of_mem _ h))
        have hcover' : ∀ d ∈ decls.map Resource.name, d ∉ emitted ++ [x.name] →
            d ∈ others.map Resource.name := by
          intro d hdall hdne
          have hd1 : d ∉ emitted := fun h => hdne (List.mem_append.mpr (Or.inl h))
          have hd2 : d ≠ x.name := fun h =>
            hdne (List.mem_append.mpr (Or.inr (by simp [h])))
          have hmem := hcover d hdall hd1
          rw [hpeq] at hmem
          rw [hoeq]
          rw [List.map_append] at hmem ⊢
          rcases List.mem_append.mp hmem with h | h
          · exact List.mem_append.mpr (Or.inl h)
          · rw [List.map_cons] at h
            rcases List.mem_cons.mp h with h | h
            · exact absurd h hd2
            · exact List.mem_append.mpr (Or.inr h)
        rcases ih others (emitted ++ [x.name]) hlen' hsub' hcover'
          with ⟨plan', hok, hperm, hgood⟩
        refine ⟨x :: plan', ?_, ?_, ?_, ?_⟩
        · simp only [buildPlanGo, hext, hok]
        · have h1 : (x :: plan').Perm (x :: others) := hperm.cons x
          have h2 : (x :: others).Perm (r :: rest) := by
            rw [hpeq, hoeq]
            exact List.perm_middle.symm
          exact h1.trans h2
        · intro d hd
          have hready' : ∀ d ∈ depsIn (decls.map Resource.name) x, d ∈ emitted := by
            simpa [ready] using hready
          exact hready' d hd
        · exact hgood

/-- C1: for every acyclic set of declared resources, `build_plan` succeeds
and returns a total order on all declared resources in which every resource
appears after all resources whose outputs it references via deferred
values. -/
theorem build_plan_succeeds_on_acyclic (decls : List Resource)
    (hnc : ¬ HasCycle decls) :
    ∃ plan, buildPlan decls = Except.ok plan ∧ plan.Perm decls ∧
      GoodOrder (decls.map Resource.name) [] plan :=
  buildPlanGo_ok_of_acyclic decls hnc decls.length decls [] le_rfl
    (fun _ h => h) (fun d hd _ => hd)

theorem buildPlanGo_cycle_error (decls : List Resource) (x : String)
    (c : List String)
    (hnd : (decls.map Resource.name).Nodup)
    (hsucc : ∀ m ∈ x :: c, ∃ m' ∈ x :: c, dependsOn decls m m' = true) :
    ∀ fuel pending emitted,
      (∀ s ∈ pending, s ∈ decls) →
      (∀ m ∈ x :: c, ∃ s ∈ pending, s.name = m) →
      (∀ m ∈ x :: c, m ∉ emitted) →
      ∃ ns, buildPlanGo (decls.map Resource.name) fuel pending emitted =
          Except.error (BuildError.cycleError ns) ∧ ∀ m ∈ x :: c, m ∈ ns := by
  intro fuel
  induction fuel with
  | zero =>
    intro pending emitted _ hpend _
    rcases hp : pending with _ | ⟨r, rest⟩
    · exfalso
      rcases hpend x (List.mem_cons_self _ _) with ⟨s, hs, _⟩
      rw [hp] at hs
      cases hs
    · subst hp
      refine ⟨(r :: rest).map Resource.name, rfl, ?_⟩
      intro m hm
      rcases hpend m hm with ⟨s, hs, rfl⟩
      exact List.mem_map_of_mem _ hs
  | succ fuel ih =>
    intro pending emitted hsub hpend hemit
    rcases hp : pending with _ | ⟨r, rest⟩
    · exfalso
      rcases hpend x (List.mem_cons_self _ _) with ⟨s, hs, _⟩
      rw [hp] at hs
      cases hs
    · subst hp
      rcases hext : extractReady (decls.map Resource.name) emitted (r :: rest)
        with _ | ⟨y, others⟩
      · refine ⟨(r :: rest).map Resource.name, by simp [buildPlanGo, hext], ?_⟩
        intro m hm
        rcases hpend m hm with ⟨s, hs, rfl⟩
        exact List.mem_map_of_mem _ hs
      · rcases extractReady_eq_some hext with ⟨hready, l₁, l₂, hpeq, hoeq⟩
        have hynotc : y.name ∉ x :: c := by
          intro hyc
          rcases hsucc y.name hyc with ⟨m', hm'c, hdep⟩
          rcases List.any_eq_true.mp hdep with ⟨t, ht, hprop⟩
          rcases Bool.and_eq_true_iff.mp hprop with ⟨h1, h2⟩
          have h1' : t.name = y.name := of_decide_eq_true h1
          have h2' : m' ∈ depsIn (decls.map Resource.name) t :=
            of_decide_eq_true h2
          have hy_decls : y ∈ decls := by
            apply hsub
            rw [hpeq]
            exact List.mem_append.mpr (Or.inr (List.mem_cons_self _ _))
          have hty : t = y := List.inj_on_of_nodup_map hnd ht hy_decls h1'
          subst hty
          have hready' : ∀ d ∈ depsIn (decls.map Resource.name) t, d ∈ emitted := by
            simpa [ready] using hready
          exact hemit m' hm'c (hready' m' h2')
        have hsub' : ∀ s ∈ others, s ∈ decls := by
          intro s hs
          apply hsub
          rw [hpeq]
          rw [hoeq] at hs
          rcases List.mem_append.mp hs with h | h
          · exact List.mem_append.mpr (Or.inl h)
          · exact List.mem_append.mpr (Or.inr (List.mem_cons_of_mem _ h))
        have hpend' : ∀ m ∈ x :: c, ∃ s ∈ others, s.name = m := by
          intro m hm
          rcases hpend m hm with ⟨s, hs, rfl⟩
          rw [hpeq] at hs
          rw [hoeq]
          rcases List.mem_append.mp hs with h | h
          · exact ⟨s, List.mem_append.mpr (Or.inl h), rfl⟩
          · rcases List.mem_cons.mp h with rfl | h
            · exact absurd hm hynotc
            · exact ⟨s, List.mem_append.mpr (Or.inr h), rfl⟩
        have hemit' : ∀ m ∈ x :: c, m ∉ emitted ++ [y.name] := by
          intro m hm hmem
          rcases List.mem_append.mp hmem with h | h
          · exact hemit m hm h
          · rcases List.mem_singleton.mp h with rfl
            exact hynotc hm
        rcases ih others (emitted ++ [y.name]) hsub' hpend' hemit'
          with ⟨ns, herr, hns⟩
        exact ⟨ns, by simp [buildPlanGo, hext, herr], hns⟩

/-- C2: for every set of declared resources whose deferred-value references
contain a cycle, `build_plan` fails with `CycleError`, and the error names
all resources participating in the cycle. -/
theorem build_plan_fails_on_cycle (decls : List Resource) (x : String)
    (c : List String)
    (hnd : (decls.map Resource.name).Nodup)
    (hmem : ∀ m ∈ x :: c, m ∈ decls.map Resource.name)
    (hchain : List.Chain (fun a b => dependsOn decls a b = true) x (c ++ [x])) :
    ∃ ns, buildPlan decls = Except.error (BuildError.cycleError ns) ∧
      ∀ m ∈ x :: c, m ∈ ns := by
  have hpend : ∀ m ∈ x :: c, ∃ s ∈ decls, s.name = m := by
    intro m hm
    rcases List.mem_map.mp (hmem m hm) with ⟨s, hs, heq⟩
    exact ⟨s, hs, heq⟩
  exact buildPlanGo_cycle_error decls x c hnd (cycle_succ hchain)
    decls.length decls [] (fun _ h => h) hpend (by simp)

theorem buildPlanGo_all_ready (allNames : List String) :
    ∀ fuel pending emitted, pending.length ≤ fuel →
      (∀ r ∈ pending, depsIn allNames r = []) →
      buildPlanGo allNames fuel pending emitted = Except.ok pending := by
  intro fuel
  induction fuel with
  | zero =>
    intro pending emitted hlen _
    have hpe : pending = [] := List.length_eq_zero.mp (Nat.le_zero.mp hlen)
    subst hpe
    rfl
  | succ fuel ih =>
    intro pending emitted hlen hdeps
    rcases pending with _ | ⟨r, rest⟩
    · rfl
    · have hready : ready allNames emitted r = true := by
        simp [ready, hdeps r (List.mem_cons_self _ _)]
      have hext : extractReady allNames emitted (r :: rest) = some (r, rest) := by
        simp [extractReady, hready]
      have hrec := ih rest (emitted ++ [r.name])
        (by simpa using Nat.le_of_succ_le_succ hlen)
        (fun s hs => hdeps s (List.mem_cons_of_mem _ hs))
      simp [buildPlanGo, hext, hrec]

/-- C4: `build_plan` is a function of the declaration list alone, so two runs
on identical input return equal plans; moreover the tie-break follows
declaration order: on declarations without any dependency edges the returned
plan is exactly the declaration order. -/
theorem build_plan_deterministic (d1 d2 : List Resource) (h : d1 = d2) :
    buildPlan d1 = buildPlan d2 ∧
      ((∀ r ∈ d1, depsIn (d1.map Resource.name) r = []) →
        buildPlan d1 = Except.ok d1) := by
  constructor
  · rw [h]
  · intro hdeps
    exact buildPlanGo_all_ready (d1.map Resource.name) d1.length d1 [] le_rfl hdeps

/-- The resource-group / storage-account example graph from the spec. -/
def rgRes : Resource := ⟨ "rg", "resource-group", []⟩

/-- Storage account whose `group` property defers to the group's `name`. -/
def saRes : Resource :=
  ⟨ "sa", "storage-account", [( "group", PropValue.ref "rg" "name")]⟩

/-- Two-resource acyclic example graph. -/
def decls0 : List Resource := [rgRes, saRes]

/-- A rank function witnessing acyclicity of `decls0`. -/
def rank0 : String → Nat := fun n => if n = "rg" then 0 else 1

theorem build_plan_succeeds_on_acyclic_witness :
    ∃ plan, buildPlan decls0 = Except.ok plan ∧ plan.Perm decls0 ∧
      GoodOrder (decls0.map Resource.name) [] plan :=
  build_plan_succeeds_on_acyclic decls0
    (no_cycle_of_rank decls0 rank0 (by decide))

/-- Two resources referencing each other's outputs: a reference cycle. -/
def declsCyc : List Resource :=
  [⟨ "a", "t", [( "p", PropValue.ref "b" "o")]⟩,
   ⟨ "b", "t", [( "q", PropValue.ref "a" "o")]⟩]

theorem build_plan_fails_on_cycle_witness :
    ∃ ns, buildPlan declsCyc = Except.error (BuildError.cycleError ns) ∧
      ∀ m ∈ "a" :: ["b"], m ∈ ns :=
  build_plan_fails_on_cycle declsCyc "a" ["b"] (by decide) (by decide)
    (List.Chain.cons (by decide) (List.Chain.cons (by decide) List.Chain.nil))

/-- Two independent resources, to exercise the declaration-order tie-break. -/
def declsFlat : List Resource := [⟨ "one", "t", []⟩, ⟨ "two", "t", []⟩]

theorem build_plan_deterministic_witness :
    buildPlan declsFlat = buildPlan declsFlat ∧
      buildPlan declsFlat = Except.ok declsFlat := by
  have h := build_plan_deterministic declsFlat declsFlat rfl
  exact ⟨h.1, h.2 (by decide)⟩

/-- First-match association lookup on string-keyed lists. -/
def lookupA {α : Type} : List (String × α) → String → Option α
  | [], _ => none
  | (k, v) :: t, k' => if k = k' then some v else lookupA t k'

theorem lookupA_append_of_some {α : Type} {l l' : List (String × α)}
    {k : String} {v : α} (h : lookupA l k = some v) :
    lookupA (l ++ l') k = some v := by
  induction l with
  | nil => simp [lookupA] at h
  | cons p t ih =>
    rcases p with ⟨k0, v0⟩
    by_cases hk : k0 = k
    · simp [lookupA, hk] at h ⊢
      exact h
    · simp [lookupA, hk] at h ⊢
      exact ih h

theorem lookupA_append_of_none {α : Type} {l l' : List (String × α)}
    {k : String} (h : lookupA l k = none) :
    lookupA (l ++ l') k = lookupA l' k := by
  induction l with
  | nil => simp
  | cons p t ih =>
    rcases p with ⟨k0, v0⟩
    by_cases hk : k0 = k
    · simp [lookupA, hk] at h
    · simp [lookupA, hk] at h ⊢
      exact ih h

/-- Modelled from the spec: resolution of a single property value against the
environment of already-materialized resource outputs; a deferred reference
reads the referenced resource's output property. -/
def resolveValue (env : List (String × List (String × String))) :
    PropValue → Option String
  | PropValue.lit s => some s
  | PropValue.ref r p =>
    match lookupA env r with
    | none => none
    | some outs => lookupA outs p

/-- Modelled from the spec: a resource's property mapping with every deferred
reference substituted by its resolved value; fails if any reference is
unresolved. -/
def resolveProps (env : List (String × List (String × String))) :
    List (String × PropValue) → Option (List (String × String))
  | [] => some []
  | (k, v) :: t =>
    match resolveValue env v, resolveProps env t with
    | some s, some rest => some ((k, s) :: rest)
    | _, _ => none

/-- The external executor capability: given a resource type and its fully
resolved property mapping, it returns the resource's outputs or fails. -/
def Executor : Type :=
  String → List (String × String) → Except String (List (String × String))

/-- A record of one executor invocation made during `resolve`. -/
structure ExecCall where
  cname : String
  ctype : String
  cprops : List (String × String)
deriving DecidableEq, Repr

/-- Errors surfaced by `resolve`. -/
inductive ResolveError where
  | unresolvedRef : String → ResolveError
  | executorError : String → String → ResolveError
deriving DecidableEq, Repr

/-- Modelled from the spec: the plan walk of `resolve` — materialize each
resource in plan order through the executor, substituting resolved outputs
into later resources' deferred references; any failure aborts the remaining
walk immediately.  Returns the executor-call trace and the final environment
or the propagated error. -/
def resolveGo (exec : Executor) :
    List Resource → List (String × List (String × String)) →
      List ExecCall × Except ResolveError (List (String × List (String × String)))
  | [], env => ([], Except.ok env)
  | r :: rest, env =>
    match resolveProps env r.props with
    | none => ([], Except.error (ResolveError.unresolvedRef r.name))
    | some rp =>
      match exec r.rtype rp with
      | Except.error msg =>
        ([⟨r.name, r.rtype, rp⟩], Except.error (ResolveError.executorError r.name msg))
      | Except.ok outs =>
        let next := resolveGo exec rest (env ++ [(r.name, outs)])
        (⟨r.name, r.rtype, rp⟩ :: next.1, next.2)

/-- A named output export of the graph, with its secrecy flag. -/
structure ExportDecl where
  ename : String
  value : PropValue
  secret : Bool
deriving DecidableEq, Repr

/-- A resolved output value: secret-marked outputs stay wrapped. -/
inductive Wrapped where
  | plain : String → Wrapped
  | secretVal : String → Wrapped
deriving DecidableEq, Repr

/-- Explicitly unwrap a resolved output to reach the plaintext. -/
def unwrapSecret : Wrapped → String
  | Wrapped.plain s => s
  | Wrapped.secretVal s => s

/-- Modelled from the spec: resolve one export; a secret-marked output is
resolved but returned wrapped. -/
def resolveExport (env : List (String × List (String × String)))
    (e : ExportDecl) : Option Wrapped :=
  match resolveValue env e.value with
  | none => none
  | some v => some (if e.secret then Wrapped.secretVal v else Wrapped.plain v)

/-- Modelled from the spec: the mapping of export names to resolved
(wrapped where secret) values. -/
def resolveExports (env : List (String × List (String × String))) :
    List ExportDecl → List (String × Wrapped)
  | [] => []
  | e :: t =>
    match resolveExport env e with
    | none => resolveExports env t
    | some w => (e.ename, w) :: resolveExports env t

/-- The non-secret view of the resolved outputs: secret-marked entries are
dropped entirely, so no plaintext of theirs appears. -/
def nonSecretView : List (String × Wrapped) → List (String × String)
  | [] => []
  | (n, Wrapped.plain s) :: t => (n, s) :: nonSecretView t
  | (_, Wrapped.secretVal _) :: t => nonSecretView t

/-- Modelled from the spec: `resolve(plan, executor)` — walk the plan in
order through the executor, then produce the mapping of declared outputs to
their resolved values; secret outputs stay wrapped.  Also returns the
executor-call trace. -/
def resolve (exec : Executor) (plan : List Resource)
    (exports : List ExportDecl) :
    List ExecCall × Except ResolveError (List (String × Wrapped)) :=
  match resolveGo exec plan [] with
  | (calls, Except.ok env) => (calls, Except.ok (resolveExports env exports))
  | (calls, Except.error e) => (calls, Except.error e)

theorem getLast?_cons_of_ne_nil {α : Type} (a : α) {l : List α} (h : l ≠ []) :
    (a :: l).getLast? = l.getLast? := by
  cases l with
  | nil => exact absurd rfl h
  | cons b t => exact List.getLast?_cons_cons

theorem resolveGo_spec (exec : Executor) :
    ∀ (plan : List Resource) (env : List (String × List (String × String))),
      (∀ cc ∈ (resolveGo exec plan env).1, ∀ msg,
          exec cc.ctype cc.cprops = Except.error msg →
          (resolveGo exec plan env).2 =
              Except.error (ResolveError.executorError cc.cname msg) ∧
            (resolveGo exec plan env).1.getLast? = some cc) ∧
      (∀ nm msg,
          (resolveGo exec plan env).2 =
            Except.error (ResolveError.executorError nm msg) →
          ∃ t, 0 < t ∧ t ≤ plan.length ∧
            (resolveGo exec plan env).1.map ExecCall.cname =
              ((plan.take t).map Resource.name) ∧
            ∃ cc, (resolveGo exec plan env).1.getLast? = some cc ∧
              cc.cname = nm ∧ exec cc.ctype cc.cprops = Except.error msg) := by
  intro plan
  induction plan with
  | nil =>
    intro env
    constructor
    · intro cc hcc
      simp [resolveGo] at hcc
    · intro nm msg h
      simp [resolveGo] at h
  | cons r rest ih =>
    intro env
    rcases hrp : resolveProps env r.props with _ | rp
    · have heq : resolveGo exec (r :: rest) env =
          ([], Except.error (ResolveError.unresolvedRef r.name)) := by
        simp [resolveGo, hrp]
      rw [heq]
      constructor
      · intro cc hcc
        simp at hcc
      · intro nm msg h
        simp at h
    · rcases hex : exec r.rtype rp with msg0 | outs
      · have heq : resolveGo exec (r :: rest) env =
            ([⟨r.name, r.rtype, rp⟩],
              Except.error (ResolveError.executorError r.name msg0)) := by
          simp [resolveGo, hrp, hex]
        rw [heq]
        constructor
        · intro cc hcc msg hmsg
          rcases List.mem_singleton.mp hcc with rfl
          simp only at hmsg
          rw [hex] at hmsg
          rcases Except.error.inj hmsg with rfl
          exact ⟨rfl, rfl⟩
        · intro nm msg h
          simp only [Except.error.injEq, ResolveError.executorError.injEq] at h
          rcases h with ⟨rfl, rfl⟩
          refine ⟨1, Nat.one_pos, by simp, by simp, ⟨r.name, r.rtype, rp⟩, rfl, rfl, hex⟩
      · have heq : resolveGo exec (r :: rest) env =
            (⟨r.name, r.rtype, rp⟩ ::
                (resolveGo exec rest (env ++ [(r.name, outs)])).1,
              (resolveGo exec rest (env ++ [(r.name, outs)])).2) := by
          simp [resolveGo, hrp, hex]
        rw [heq]
        rcases ih (env ++ [(r.name, outs)]) with ⟨ih1, ih2⟩
        constructor
        · intro cc hcc msg hmsg
          rcases List.mem_cons.mp hcc with rfl | hcc
          · simp only at hmsg
            rw [hex] at hmsg
            cases hmsg
          · rcases ih1 cc hcc msg hmsg with ⟨hres, hlast⟩
            have hne : (resolveGo exec rest (env ++ [(r.name, outs)])).1 ≠ [] := by
              intro hnil
              rw [hnil] at hcc
              cases hcc
            exact ⟨hres, by rw [getLast?_cons_of_ne_nil _ hne]; exact hlast⟩
        · intro nm msg h
          rcases ih2 nm msg h with ⟨t, ht0, htlen, hmap, cc, hlast, hnm, hfail⟩
          have hne : (resolveGo exec rest (env ++ [(r.name, outs)])).1 ≠ [] := by
            intro hnil
            rw [hnil] at hlast
            cases hlast
          refine ⟨t + 1, Nat.succ_pos t, by simpa using htlen, ?_, cc, ?_, hnm, hfail⟩
          · rw [List.take_succ_cons, List.map_cons, List.map_cons, hmap]
          · rw [getLast?_cons_of_ne_nil _ hne]
            exact hlast

/-- C6: if the executor fails on some resource during `resolve`, that
failing call is the last executor call made — no executor call is made for
any later resource in the plan, the calls made are exactly a prefix of the
plan — and the failure is propagated to the caller wrapped as
`ExecutorError`, never swallowed. -/
theorem resolve_aborts_on_executor_failure (exec : Executor)
    (plan : List Resource) (exports : List ExportDecl)
    (calls : List ExecCall) (res : Except ResolveError (List (String × Wrapped)))
    (hrun : resolve exec plan exports = (calls, res)) :
    (∀ cc ∈ calls, ∀ msg, exec cc.ctype cc.cprops = Except.error msg →
        res = Except.error (ResolveError.executorError cc.cname msg) ∧
          calls.getLast? = some cc) ∧
    (∀ nm msg, res = Except.error (ResolveError.executorError nm msg) →
        ∃ t, 0 < t ∧ t ≤ plan.length ∧
          calls.map ExecCall.cname = (plan.take t).map Resource.name ∧
          ∃ cc, calls.getLast? = some cc ∧ cc.cname = nm ∧
            exec cc.ctype cc.cprops = Except.error msg) := by
  rcases hspec : resolveGo exec plan [] with ⟨calls0, res0⟩
  have h1 := (resolveGo_spec exec plan []).1
  have h2 := (resolveGo_spec exec plan []).2
  rw [hspec] at h1 h2
  dsimp only at h1 h2
  cases res0 with
  | ok env0 =>
    have hre : resolve exec plan exports =
        (calls0, Except.ok (resolveExports env0 exports)) := by
      unfold resolve
      rw [hspec]
    rw [hre] at hrun
    cases hrun
    constructor
    · intro cc hcc msg hmsg
      rcases h1 cc hcc msg hmsg with ⟨hbad, _⟩
      cases hbad
    · intro nm msg h
      cases h
  | error e0 =>
    have hre : resolve exec plan exports = (calls0, Except.error e0) := by
      unfold resolve
      rw [hspec]
    rw [hre] at hrun
    cases hrun
    constructor
    · intro cc hcc msg hmsg
      rcases h1 cc hcc msg hmsg with ⟨hbad, hlast⟩
      have he0 : e0 = ResolveError.executorError cc.cname msg := Except.error.inj hbad
      exact ⟨by rw [he0], hlast⟩
    · intro nm msg h
      have he0 : e0 = ResolveError.executorError nm msg := Except.error.inj h
      exact h2 nm msg (by rw [he0])

theorem resolveProps_lookup (env : List (String × List (String × String))) :
    ∀ (props : List (String × PropValue)) (cp : List (String × String)),
      resolveProps env props = some cp →
      (props.map Prod.fst).Nodup →
      ∀ k pv, (k, pv) ∈ props →
        ∃ s, resolveValue env pv = some s ∧ lookupA cp k = some s := by
  intro props
  induction props with
  | nil =>
    intro cp _ _ k pv hk
    cases hk
  | cons p t ih =>
    rcases p with ⟨k0, v0⟩
    intro cp h hnd k pv hk
    rcases hv0 : resolveValue env v0 with _ | s0
    · simp [resolveProps, hv0] at h
    · rcases ht : resolveProps env t with _ | rest
      · simp [resolveProps, hv0, ht] at h
      · simp only [resolveProps, hv0, ht, Option.some.injEq] at h
        subst h
        have hnd' : k0 ∉ t.map Prod.fst ∧ (t.map Prod.fst).Nodup := by
          rw [List.map_cons, List.nodup_cons] at hnd
          exact hnd
        rcases List.mem_cons.mp hk with heq | hk
        · rw [Prod.mk.injEq] at heq
          rcases heq with ⟨rfl, rfl⟩
          refine ⟨s0, hv0, ?_⟩
          simp [lookupA]
        · have hk0 : k0 ≠ k := by
            intro hkk
            subst hkk
            exact hnd'.1 (List.mem_map_of_mem Prod.fst hk)
          rcases ih rest ht hnd'.2 k pv hk with ⟨s, hs, hlook⟩
          refine ⟨s, hs, ?_⟩
          simpa [lookupA, hk0] using hlook

theorem resolveGo_reaches_B (exec : Executor) (A B : Resource)
    (x k : String) (outsA : List (String × String))
    (hk : (k, PropValue.ref A.name x) ∈ B.props)
    (hknd : (B.props.map Prod.fst).Nodup) :
    ∀ (p2 p3 : List Resource) (env : List (String × List (String × String))),
      lookupA env A.name = some outsA →
      (∀ r ∈ p2, r.name ≠ B.name) →
      (∃ cB ∈ (resolveGo exec (p2 ++ B :: p3) env).1, cB.cname = B.name) →
      ∃ v cB, cB ∈ (resolveGo exec (p2 ++ B :: p3) env).1 ∧
        cB.cname = B.name ∧ lookupA outsA x = some v ∧
        lookupA cB.cprops k = some v := by
  intro p2
  induction p2 with
  | nil =>
    intro p3 env hA _ hB
    rcases hrp : resolveProps env B.props with _ | cp
    · exfalso
      rcases hB with ⟨cB, hcB, _⟩
      have hc : (resolveGo exec ([] ++ B :: p3) env).1 = [] := by
        simp [resolveGo, hrp]
      rw [hc] at hcB
      cases hcB
    · rcases resolveProps_lookup env B.props cp hrp hknd k _ hk with ⟨v, hv, hlook⟩
      have hvv : lookupA outsA x = some v := by
        simpa [resolveValue, hA] using hv
      rcases hex : exec B.rtype cp with msg | outs
      · refine ⟨v, ⟨B.name, B.rtype, cp⟩, ?_, rfl, hvv, hlook⟩
        have hc : (resolveGo exec ([] ++ B :: p3) env).1 =
            [⟨B.name, B.rtype, cp⟩] := by
          simp [resolveGo, hrp, hex]
        rw [hc]
        exact List.mem_singleton.mpr rfl
      · refine ⟨v, ⟨B.name, B.rtype, cp⟩, ?_, rfl, hvv, hlook⟩
        have hc : (resolveGo exec ([] ++ B :: p3) env).1 =
            ⟨B.name, B.rtype, cp⟩ ::
              (resolveGo exec p3 (env ++ [(B.name, outs)])).1 := by
          simp [resolveGo, hrp, hex]
        rw [hc]
        exact List.mem_cons_self _ _
  | cons r p2' ih =>
    intro p3 env hA hne hB
    rcases hrp : resolveProps env r.props with _ | rp
    · exfalso
      rcases hB with ⟨cB, hcB, _⟩
      have hc : (resolveGo exec ((r :: p2') ++ B :: p3) env).1 = [] := by
        simp [resolveGo, hrp]
      rw [hc] at hcB
      cases hcB
    · rcases hex : exec r.rtype rp with msg | outs
      · exfalso
        rcases hB with ⟨cB, hcB, hcn⟩
        have hc : (resolveGo exec ((r :: p2') ++ B :: p3) env).1 =
            [⟨r.name, r.rtype, rp⟩] := by
          simp [resolveGo, hrp, hex]
        rw [hc] at hcB
        rcases List.mem_singleton.mp hcB with rfl
        exact hne r (List.mem_cons_self _ _) hcn
      · have hc : (resolveGo exec ((r :: p2') ++ B :: p3) env).1 =
            ⟨r.name, r.rtype, rp⟩ ::
              (resolveGo exec (p2' ++ B :: p3) (env ++ [(r.name, outs)])).1 := by
          simp [resolveGo, hrp, hex]
        have hA' : lookupA (env ++ [(r.name, outs)]) A.name = some outsA :=
          lookupA_append_of_some hA
        have hne' : ∀ s ∈ p2', s.name ≠ B.name :=
          fun s hs => hne s (List.mem_cons_of_mem _ hs)
        have hB' : ∃ cB ∈ (resolveGo exec (p2' ++ B :: p3)
              (env ++ [(r.name, outs)])).1, cB.cname = B.name := by
          rcases hB with ⟨cB, hcB, hcn⟩
          rw [hc] at hcB
          rcases List.mem_cons.mp hcB with rfl | hcB
          · exact absurd hcn (hne r (List.mem_cons_self _ _))
          · exact ⟨cB, hcB, hcn⟩
        rcases ih p3 (env ++ [(r.name, outs)]) hA' hne' hB'
          with ⟨v, cB, hcB, hcn, hvv, hlook⟩
        refine ⟨v, cB, ?_, hcn, hvv, hlook⟩
        rw [hc]
        exact List.mem_cons_of_mem _ hcB

theorem resolveGo_through_A (exec : Executor) (A B : Resource)
    (x k : String)
    (hk : (k, PropValue.ref A.name x) ∈ B.props)
    (hknd : (B.props.map Prod.fst).Nodup)
    (hABne : A.name ≠ B.name) :
    ∀ (p1 p2 p3 : List Resource) (env : List (String × List (String × String))),
      lookupA env A.name = none →
      (∀ r ∈ p1, r.name ≠ B.name) →
      (∀ r ∈ p1, r.name ≠ A.name) →
      (∀ r ∈ p2, r.name ≠ B.name) →
      (∃ cB ∈ (resolveGo exec (p1 ++ A :: (p2 ++ B :: p3)) env).1,
        cB.cname = B.name) →
      ∃ cA outsA v cB,
        cA ∈ (resolveGo exec (p1 ++ A :: (p2 ++ B :: p3)) env).1 ∧
        cA.cname = A.name ∧ exec cA.ctype cA.cprops = Except.ok outsA ∧
        lookupA outsA x = some v ∧
        cB ∈ (resolveGo exec (p1 ++ A :: (p2 ++ B :: p3)) env).1 ∧
        cB.cname = B.name ∧ lookupA cB.cprops k = some v := by
  intro p1
  induction p1 with
  | nil =>
    intro p2 p3 env hAnone _ _ hne2 hB
    rcases hrp : resolveProps env A.props with _ | pA
    · exfalso
      rcases hB with ⟨cB, hcB, _⟩
      have hc : (resolveGo exec ([] ++ A :: (p2 ++ B :: p3)) env).1 = [] := by
        simp [resolveGo, hrp]
      rw [hc] at hcB
      cases hcB
    · rcases hex : exec A.rtype pA with msg | outsA
      · exfalso
        rcases hB with ⟨cB, hcB, hcn⟩
        have hc : (resolveGo exec ([] ++ A :: (p2 ++ B :: p3)) env).1 =
            [⟨A.name, A.rtype, pA⟩] := by
          simp [resolveGo, hrp, hex]
        rw [hc] at hcB
        rcases List.mem_singleton.mp hcB with rfl
        exact hABne hcn
      · have hc : (resolveGo exec ([] ++ A :: (p2 ++ B :: p3)) env).1 =
            ⟨A.name, A.rtype, pA⟩ ::
              (resolveGo exec (p2 ++ B :: p3) (env ++ [(A.name, outsA)])).1 := by
          simp [resolveGo, hrp, hex]
        have henv' : lookupA (env ++ [(A.name, outsA)]) A.name = some outsA := by
          rw [lookupA_append_of_none hAnone]
          simp [lookupA]
        have hB' : ∃ cB ∈ (resolveGo exec (p2 ++ B :: p3)
              (env ++ [(A.name, outsA)])).1, cB.cname = B.name := by
          rcases hB with ⟨cB, hcB, hcn⟩
          rw [hc] at hcB
          rcases List.mem_cons.mp hcB with rfl | hcB
          · exact absurd hcn hABne
          · exact ⟨cB, hcB, hcn⟩
        rcases resolveGo_reaches_B exec A B x k outsA hk hknd p2 p3
            (env ++ [(A.name, outsA)]) henv' hne2 hB'
          with ⟨v, cB, hcB, hcn, hvv, hlook⟩
        refine ⟨⟨A.name, A.rtype, pA⟩, outsA, v, cB, ?_, rfl, hex, hvv, ?_, hcn, hlook⟩
        · rw [hc]
          exact List.mem_cons_self _ _
        · rw [hc]
          exact List.mem_cons_of_mem _ hcB
  | cons r p1' ih =>
    intro p2 p3 env hAnone hne1B hne1A hne2 hB
    have hrB : r.name ≠ B.name := hne1B r (List.mem_cons_self _ _)
    have hrA : r.name ≠ A.name := hne1A r (List.mem_cons_self _ _)
    rcases hrp : resolveProps env r.props with _ | rp
    · exfalso
      rcases hB with ⟨cB, hcB, _⟩
      have hc : (resolveGo exec ((r :: p1') ++ A :: (p2 ++ B :: p3)) env).1 = [] := by
        simp [resolveGo, hrp]
      rw [hc] at hcB
      cases hcB
    · rcases hex : exec r.rtype rp with msg | outs
      · exfalso
        rcases hB with ⟨cB, hcB, hcn⟩
        have hc : (resolveGo exec ((r :: p1') ++ A :: (p2 ++ B :: p3)) env).1 =
            [⟨r.name, r.rtype, rp⟩] := by
          simp [resolveGo, hrp, hex]
        rw [hc] at hcB
        rcases List.mem_singleton.mp hcB with rfl
        exact hrB hcn
      · have hc : (resolveGo exec ((r :: p1') ++ A :: (p2 ++ B :: p3)) env).1 =
            ⟨r.name, r.rtype, rp⟩ ::
              (resolveGo exec (p1' ++ A :: (p2 ++ B :: p3))
                (env ++ [(r.name, outs)])).1 := by
          simp [resolveGo, hrp, hex]
        have hAnone' : lookupA (env ++ [(r.name, outs)]) A.name = none := by
          rw [lookupA_append_of_none hAnone]
          simp [lookupA, hrA]
        have hne1B' : ∀ s ∈ p1', s.name ≠ B.name :=
          fun s hs => hne1B s (List.mem_cons_of_mem _ hs)
        have hne1A' : ∀ s ∈ p1', s.name ≠ A.name :=
          fun s hs => hne1A s (List.mem_cons_of_mem _ hs)
        have hB' : ∃ cB ∈ (resolveGo exec (p1' ++ A :: (p2 ++ B :: p3))
              (env ++ [(r.name, outs)])).1, cB.cname = B.name := by
          rcases hB with ⟨cB, hcB, hcn⟩
          rw [hc] at hcB
          rcases List.mem_cons.mp hcB with rfl | hcB
          · exact absurd hcn hrB
          · exact ⟨cB, hcB, hcn⟩
        rcases ih p2 p3 (env ++ [(r.name, outs)]) hAnone' hne1B' hne1A' hne2 hB'
          with ⟨cA, outsA, v, cB, hcA, hcnA, hexA, hvv, hcB, hcnB, hlook⟩
        exact ⟨cA, outsA, v, cB,
          by rw [hc]; exact List.mem_cons_of_mem _ hcA, hcnA, hexA, hvv,
          by rw [hc]; exact List.mem_cons_of_mem _ hcB, hcnB, hlook⟩

/-- C3: in every plan where resource A is materialized before resource B and
B declares a property as a deferred reference to A's output `x`, `resolve`
invokes the executor for B with that property bound to the actual value of
`x` in the outputs the executor returned for A — not the placeholder. -/
theorem resolve_passes_actual_value (exec : Executor)
    (plan p1 p2 p3 : List Resource) (A B : Resource)
    (exports : List ExportDecl) (k x : String)
    (calls : List ExecCall)
    (res : Except ResolveError (List (String × Wrapped)))
    (hplan : plan = p1 ++ A :: (p2 ++ B :: p3))
    (hnd : (plan.map Resource.name).Nodup)
    (hk : (k, PropValue.ref A.name x) ∈ B.props)
    (hknd : (B.props.map Prod.fst).Nodup)
    (hrun : resolve exec plan exports = (calls, res))
    (hB : ∃ cB ∈ calls, cB.cname = B.name) :
    ∃ cA outsA v cB,
      cA ∈ calls ∧ cA.cname = A.name ∧
      exec cA.ctype cA.cprops = Except.ok outsA ∧
      lookupA outsA x = some v ∧
      cB ∈ calls ∧ cB.cname = B.name ∧ lookupA cB.cprops k = some v := by
  subst hplan
  have hmap : (p1 ++ A :: (p2 ++ B :: p3)).map Resource.name =
      p1.map Resource.name ++
        A.name :: (p2.map Resource.name ++ B.name :: p3.map Resource.name) := by
    simp
  rw [hmap] at hnd
  rcases List.nodup_append.mp hnd with ⟨_, hnd2, hdisj1⟩
  rcases List.nodup_cons.mp hnd2 with ⟨hAnin, hnd3⟩
  rcases List.nodup_append.mp hnd3 with ⟨_, _, hdisj2⟩
  have hABne : A.name ≠ B.name := by
    intro h
    exact hAnin (by
      rw [h]
      exact List.mem_append.mpr (Or.inr (List.mem_cons_self _ _)))
  have hp1B : ∀ r ∈ p1, r.name ≠ B.name := by
    intro r hr h
    exact hdisj1 (List.mem_map_of_mem Resource.name hr) (by
      rw [h]
      exact List.mem_cons_of_mem _
        (List.mem_append.mpr (Or.inr (List.mem_cons_self _ _))))
  have hp1A : ∀ r ∈ p1, r.name ≠ A.name := by
    intro r hr h
    exact hdisj1 (List.mem_map_of_mem Resource.name hr) (by
      rw [h]
      exact List.mem_cons_self _ _)
  have hp2B : ∀ r ∈ p2, r.name ≠ B.name := by
    intro r hr h
    exact hdisj2 (List.mem_map_of_mem Resource.name hr) (by
      rw [h]
      exact List.mem_cons_self _ _)
  have hcalls : calls = (resolveGo exec (p1 ++ A :: (p2 ++ B :: p3)) []).1 := by
    rcases hgo : resolveGo exec (p1 ++ A :: (p2 ++ B :: p3)) [] with ⟨c0, r0⟩
    cases r0 with
    | ok env0 =>
      unfold resolve at hrun
      rw [hgo] at hrun
      cases hrun
      rfl
    | error e0 =>
      unfold resolve at hrun
      rw [hgo] at hrun
      cases hrun
      rfl
  rw [hcalls] at hB
  rcases resolveGo_through_A exec A B x k hk hknd hABne p1 p2 p3 [] rfl
      hp1B hp1A hp2B hB
    with ⟨cA, outsA, v, cB, hcA, hcnA, hexA, hvv, hcB, hcnB, hlook⟩
  rw [hcalls]
  exact ⟨cA, outsA, v, cB, hcA, hcnA, hexA, hvv, hcB, hcnB, hlook⟩

/-- An executor that materializes the example graph successfully. -/
def execOk : Executor := fun rt _ =>
  if rt = "resource-group" then Except.ok [( "name", "rg-123")]
  else Except.ok [( "endpoint", "web")]

/-- An executor that fails on everything but the resource group. -/
def execFail : Executor := fun rt _ =>
  if rt = "resource-group" then Except.ok [( "name", "rg-123")]
  else Except.error "boom"

/-- The executor-call trace of resolving `decls0` with `execOk`. -/
def callsOk : List ExecCall :=
  [⟨ "rg", "resource-group", []⟩,
   ⟨ "sa", "storage-account", [( "group", "rg-123")]⟩]

theorem resolve_passes_actual_value_witness :
    ∃ cA outsA v cB,
      cA ∈ callsOk ∧ cA.cname = rgRes.name ∧
      execOk cA.ctype cA.cprops = Except.ok outsA ∧
      lookupA outsA "name" = some v ∧
      cB ∈ callsOk ∧ cB.cname = saRes.name ∧
      lookupA cB.cprops "group" = some v :=
  resolve_passes_actual_value execOk decls0 [] [] [] rgRes saRes [] "group"
    "name" callsOk (Except.ok []) rfl (by decide) (by decide) (by decide)
    rfl (by decide)

theorem resolve_aborts_on_executor_failure_witness :
    (∀ cc ∈ callsOk, ∀ msg, execFail cc.ctype cc.cprops = Except.error msg →
        (Except.error (ResolveError.executorError "sa" "boom") :
            Except ResolveError (List (String × Wrapped))) =
          Except.error (ResolveError.executorError cc.cname msg) ∧
        callsOk.getLast? = some cc) ∧
    (∀ nm msg,
        (Except.error (ResolveError.executorError "sa" "boom") :
            Except ResolveError (List (String × Wrapped))) =
          Except.error (ResolveError.executorError nm msg) →
        ∃ t, 0 < t ∧ t ≤ decls0.length ∧
          callsOk.map ExecCall.cname = (decls0.take t).map Resource.name ∧
          ∃ cc, callsOk.getLast? = some cc ∧ cc.cname = nm ∧
            execFail cc.ctype cc.cprops = Except.error msg) :=
  resolve_aborts_on_executor_failure execFail decls0 [] callsOk
    (Except.error (ResolveError.executorError "sa" "boom")) rfl

theorem resolveExports_names (env : List (String × List (String × String))) :
    ∀ (es : List ExportDecl) (n : String),
      n ∈ (resolveExports env es).map Prod.fst → n ∈ es.map ExportDecl.ename := by
  intro es
  induction es with
  | nil => intro n h; simp [resolveExports] at h
  | cons e0 t ih =>
    intro n h
    rcases hre : resolveExport env e0 with _ | w
    · rw [List.map_cons]
      exact List.mem_cons_of_mem _ (ih n (by rwa [resolveExports, hre] at h))
    · rw [resolveExports, hre, List.map_cons] at h
      rcases List.mem_cons.mp h with rfl | h
      · exact List.mem_cons_self _ _
      · exact List.mem_cons_of_mem _ (ih n h)

theorem nonSecretView_names :
    ∀ (rs : List (String × Wrapped)) (n : String),
      n ∈ (nonSecretView rs).map Prod.fst → n ∈ rs.map Prod.fst := by
  intro rs
  induction rs with
  | nil => intro n h; simp [nonSecretView] at h
  | cons p t ih =>
    rcases p with ⟨n0, w⟩
    intro n h
    cases w with
    | plain s =>
      rw [nonSecretView, List.map_cons] at h
      rcases List.mem_cons.mp h with rfl | h
      · exact List.mem_cons_self _ _
      · exact List.mem_cons_of_mem _ (ih n h)
    | secretVal s =>
      rw [nonSecretView] at h
      exact List.mem_cons_of_mem _ (ih n h)

theorem resolveExports_mem_value
    (env : List (String × List (String × String))) :
    ∀ (es : List ExportDecl) (e : ExportDecl), e ∈ es →
      (es.map ExportDecl.ename).Nodup →
      e.ename ∈ (resolveExports env es).map Prod.fst →
      ∃ v, resolveValue env e.value = some v := by
  intro es
  induction es with
  | nil => intro e he; cases he
  | cons e0 t ih =>
    intro e he hnd hmem
    have hnd' : e0.ename ∉ t.map ExportDecl.ename ∧
        (t.map ExportDecl.ename).Nodup := by
      rw [List.map_cons, List.nodup_cons] at hnd
      exact hnd
    rcases List.mem_cons.mp he with rfl | he
    · rcases hre : resolveExport env e with _ | w
      · exfalso
        rw [resolveExports, hre] at hmem
        exact hnd'.1 (resolveExports_names env t e.ename hmem)
      · rcases hrv : resolveValue env e.value with _ | v
        · rw [resolveExport, hrv] at hre
          cases hre
        · exact ⟨v, rfl⟩
    · have hene : e0.ename ≠ e.ename := by
        intro h
        exact hnd'.1 (h ▸ List.mem_map_of_mem ExportDecl.ename he)
      rcases hre : resolveExport env e0 with _ | w
      · rw [resolveExports, hre] at hmem
        exact ih e he hnd'.2 hmem
      · rw [resolveExports, hre, List.map_cons] at hmem
        rcases List.mem_cons.mp hmem with heq | hmem
        · exact absurd heq.symm hene
        · exact ih e he hnd'.2 hmem

theorem resolveExports_secret
    (env : List (String × List (String × String))) :
    ∀ (es : List ExportDecl) (e : ExportDecl) (v : String), e ∈ es →
      e.secret = true → (es.map ExportDecl.ename).Nodup →
      resolveValue env e.value = some v →
      lookupA (resolveExports env es) e.ename =
          some (Wrapped.secretVal v) ∧
        e.ename ∉ (nonSecretView (resolveExports env es)).map Prod.fst := by
  intro es
  induction es with
  | nil => intro e v he; cases he
  | cons e0 t ih =>
    intro e v he hsec hnd hv
    have hnd' : e0.ename ∉ t.map ExportDecl.ename ∧
        (t.map ExportDecl.ename).Nodup := by
      rw [List.map_cons, List.nodup_cons] at hnd
      exact hnd
    rcases List.mem_cons.mp he with rfl | he
    · have hre : resolveExport env e = some (Wrapped.secretVal v) := by
        rw [resolveExport, hv, hsec]
        rfl
      rw [resolveExports, hre]
      constructor
      · simp [lookupA]
      · intro hmem
        rw [nonSecretView] at hmem
        exact hnd'.1 (resolveExports_names env t e.ename
          (nonSecretView_names _ e.ename hmem))
    · have hene : e0.ename ≠ e.ename := by
        intro h
        exact hnd'.1 (h ▸ List.mem_map_of_mem ExportDecl.ename he)
      rcases ih e v he hsec hnd'.2 hv with ⟨hlook, hview⟩
      rcases hre : resolveExport env e0 with _ | w
      · rw [resolveExports, hre]
        exact ⟨hlook, hview⟩
      · rw [resolveExports, hre]
        constructor
        · simpa [lookupA, hene] using hlook
        · cases w with
          | plain s =>
            intro hmem
            rw [nonSecretView, List.map_cons] at hmem
            rcases List.mem_cons.mp hmem with heq | hmem
            · exact hene heq.symm
            · exact hview hmem
          | secretVal s =>
            intro hmem
            rw [nonSecretView] at hmem
            exact hview hmem

/-- C5: every output exported with the secret flag is returned by `resolve`
wrapped — looking it up in the result yields a wrapped secret which must be
explicitly unwrapped to read the plaintext — and its name never appears in
the non-secret result view, so its plaintext is absent from that view. -/
theorem resolve_secret_stays_wrapped (exec : Executor) (plan : List Resource)
    (exports : List ExportDecl) (e : ExportDecl)
    (calls : List ExecCall) (results : List (String × Wrapped))
    (hrun : resolve exec plan exports = (calls, Except.ok results))
    (he : e ∈ exports) (hsec : e.secret = true)
    (hnd : (exports.map ExportDecl.ename).Nodup)
    (hres : e.ename ∈ results.map Prod.fst) :
    ∃ v, lookupA results e.ename = some (Wrapped.secretVal v) ∧
      e.ename ∉ (nonSecretView results).map Prod.fst ∧
      unwrapSecret (Wrapped.secretVal v) = v := by
  rcases hgo : resolveGo exec plan [] with ⟨c0, r0⟩
  cases r0 with
  | error e0 =>
    unfold resolve at hrun
    rw [hgo] at hrun
    simp at hrun
  | ok env0 =>
    unfold resolve at hrun
    rw [hgo] at hrun
    cases hrun
    rcases resolveExports_mem_value env0 exports e he hnd hres with ⟨v, hv⟩
    rcases resolveExports_secret env0 exports e v he hsec hnd hv
      with ⟨hlook, hview⟩
    exact ⟨v, hlook, hview, rfl⟩

/-- A secret export of the resource group's name output. -/
def exports0 : List ExportDecl :=
  [⟨ "out1", PropValue.ref "rg" "name", true⟩]

theorem resolve_secret_stays_wrapped_witness :
    ∃ v, lookupA [( "out1", Wrapped.secretVal "rg-123")] "out1" =
        some (Wrapped.secretVal v) ∧
      "out1" ∉ (nonSecretView [( "out1", Wrapped.secretVal "rg-123")]).map
        Prod.fst ∧
      unwrapSecret (Wrapped.secretVal v) = v :=
  resolve_secret_stays_wrapped execOk decls0 exports0
    ⟨ "out1", PropValue.ref "rg" "name", true⟩ callsOk
    [( "out1", Wrapped.secretVal "rg-123")] rfl (by decide) rfl (by decide)
    (by decide)

/-- Configuration key/value settings supplied to the program. -/
def Config : Type := List (String × String)

/-- Modelled from the spec: `config.get` of the external configuration
collaborator — the raw configured value when the key is present, else
nothing. -/
def cfgGet (c : Config) (k : String) : Option String := lookupA c k

/-- Errors of configuration reading. -/
inductive ConfigError where
  | missingKey : String → ConfigError
deriving DecidableEq, Repr

/-- Modelled from the spec: `config.require` — a required plain value fails
loudly when absent instead of substituting a default. -/
def cfgRequire (c : Config) (k : String) : Except ConfigError String :=
  match cfgGet c k with
  | some v => Except.ok v
  | none => Except.error (ConfigError.missingKey k)

/-- Python's `x or y` on an optional string: the configured value only when
it is present and non-empty (Python treats the empty string as falsy),
otherwise the default. -/
def pyOr : Option String → String → String
  | some s, d => if s = "" then d else s
  | none, d => d

/-- Embeds `pulumi.py` line 8:
`location = config.get("azure-native:location") or "EastUS"`. -/
def location (c : Config) : String :=
  pyOr (cfgGet c "azure-native:location") "EastUS"

/-- Embeds `pulumi.py` line 11:
`admin_username = config.get("adminUsername") or "azureuser"`. -/
def admin_username (c : Config) : String :=
  pyOr (cfgGet c "adminUsername") "azureuser"

/-- Embeds `pulumi.py` line 15:
`sql_admin_username = config.get("sqlAdminUsername") or "sqladminuser"`. -/
def sql_admin_username (c : Config) : String :=
  pyOr (cfgGet c "sqlAdminUsername") "sqladminuser"

/-- Embeds `pulumi.py` line 19:
`sql_server_name = config.require("sqlServerName")`. -/
def sql_server_name (c : Config) : Except ConfigError String :=
  cfgRequire c "sqlServerName"

/-- C7: the required plain configuration value `sqlServerName` fails loudly
when absent — reading it yields the missing-key error and never any value,
rather than substituting a default. -/
theorem required_config_fails_loudly (c : Config)
    (h : cfgGet c "sqlServerName" = none) :
    sql_server_name c = Except.error (ConfigError.missingKey "sqlServerName") ∧
      ∀ v, sql_server_name c ≠ Except.ok v := by
  constructor
  · unfold sql_server_name cfgRequire
    rw [h]
  · intro v hv
    unfold sql_server_name cfgRequire at hv
    rw [h] at hv
    cases hv

theorem required_config_fails_loudly_witness :
    sql_server_name [] =
        Except.error (ConfigError.missingKey "sqlServerName") ∧
      ∀ v, sql_server_name [] ≠ Except.ok v :=
  required_config_fails_loudly [] rfl

/-- C8 counterexample: a configuration that carries the key `adminUsername`
with the empty string as its value — the key is present, yet the program
substitutes the fixed default instead of using the configured value, because
Python's `or` treats the empty string as falsy. -/
theorem config_default_despite_present_key :
    cfgGet [( "adminUsername", "")] "adminUsername" = some "" ∧
      admin_username [( "adminUsername", "")] = "azureuser" ∧
      admin_username [( "adminUsername", "")] ≠ "" := by
  refine ⟨rfl, rfl, ?_⟩
  decide

/-- C8 (amended): when the configuration keys are absent the program
substitutes the fixed defaults `EastUS`, `azureuser` and `sqladminuser` at
its public interface; the configured value is used only when the key is
present with a non-empty value — a present but empty value also falls back
to the default, since the source combines `config.get` with Python's
`or`. -/
theorem config_defaults (c : Config) :
    (cfgGet c "azure-native:location" = none → location c = "EastUS") ∧
    (cfgGet c "adminUsername" = none → admin_username c = "azureuser") ∧
    (cfgGet c "sqlAdminUsername" = none →
      sql_admin_username c = "sqladminuser") ∧
    (∀ s, s ≠ "" → cfgGet c "azure-native:location" = some s →
      location c = s) ∧
    (∀ s, s ≠ "" → cfgGet c "adminUsername" = some s →
      admin_username c = s) ∧
    (∀ s, s ≠ "" → cfgGet c "sqlAdminUsername" = some s →
      sql_admin_username c = s) ∧
    (cfgGet c "azure-native:location" = some "" → location c = "EastUS") ∧
    (cfgGet c "adminUsername" = some "" → admin_username c = "azureuser") ∧
    (cfgGet c "sqlAdminUsername" = some "" →
      sql_admin_username c = "sqladminuser") := by
  refine ⟨?_, ?_, ?_, ?_, ?_, ?_, ?_, ?_, ?_⟩
  · intro h
    unfold location
    rw [h]
    rfl
  · intro h
    unfold admin_username
    rw [h]
    rfl
  · intro h
    unfold sql_admin_username
    rw [h]
    rfl
  · intro s hs h
    unfold location
    rw [h]
    simp [pyOr, hs]
  · intro s hs h
    unfold admin_username
    rw [h]
    simp [pyOr, hs]
  · intro s hs h
    unfold sql_admin_username
    rw [h]
    simp [pyOr, hs]
  · intro h
    unfold location
    rw [h]
    simp [pyOr]
  · intro h
    unfold admin_username
    rw [h]
    simp [pyOr]
  · intro h
    unfold sql_admin_username
    rw [h]
    simp [pyOr]

theorem config_defaults_witness :
    location [] = "EastUS" ∧ admin_username [] = "azureuser" ∧
      sql_admin_username [] = "sqladminuser" ∧
      location [( "azure-native:location", "WestUS2")] = "WestUS2" := by
  have h1 := config_defaults []
  have h2 := config_defaults [( "azure-native:location", "WestUS2")]
  exact ⟨h1.1 rfl, h1.2.1 rfl, h1.2.2.1 rfl,
    h2.2.2.2.1 "WestUS2" (by decide) rfl⟩

/-- Embeds `pulumi.py` lines 169-173: the f-string building the SQL
connection string from the resolved server name, database name, admin
username and admin password. -/
def connection_string (server db user pw : String) : String :=
  "Server=tcp:" ++ server ++ ".database.windows.net;Database=" ++ db ++
    ";User ID=" ++ user ++ ";Password=" ++ pw ++
    ";Encrypt=true;Connection Timeout=30;"

/-- Embeds the program's four `pulumi.export` calls (lines 64, 67, 143, 175)
and whether each value is wrapped with `pulumi.Output.secret`. -/
def programExportFlags : List (String × Bool) :=
  [( "primary_storage_key", true), ( "staticEndpoint", false),
   ( "vm_id", false), ( "sql_connection_string", true)]

/-- C9: the exported `sql_connection_string` is exactly the template string
with the resolved server name, database name, admin username and admin
password interpolated; in particular the plaintext admin password occurs
verbatim inside the value, and the program exports that value under the
secret flag. -/
theorem connection_string_format (server db user pw : String) :
    connection_string server db user pw =
      "Server=tcp:" ++ server ++ ".database.windows.net;Database=" ++ db ++
        ";User ID=" ++ user ++ ";Password=" ++ pw ++
        ";Encrypt=true;Connection Timeout=30;" ∧
    (∃ pre suf : String,
      connection_string server db user pw = pre ++ (pw ++ suf)) ∧
    ( "sql_connection_string", true) ∈ programExportFlags := by
  refine ⟨rfl, ?_, by decide⟩
  refine ⟨ "Server=tcp:" ++ server ++ ".database.windows.net;Database=" ++
    db ++ ";User ID=" ++ user ++ ";Password=",
    ";Encrypt=true;Connection Timeout=30;", ?_⟩
  unfold connection_string
  simp only [String.append_assoc]

/-- Embeds the resource declarations of `pulumi.py` (lines 22-166): logical
names, provider types, and properties, with deferred references for every
property read from another resource's outputs.  Nested argument structures
are flattened to dotted property paths; the configuration-derived inputs
(`loc`, `au`, `ap`, `su`, `sp`, `sn`) are literals known before
materialization. -/
def programDecls (loc au ap su sp sn : String) : List Resource :=
  [⟨ "resource_group", "azure-native:resources:ResourceGroup",
      [( "location", PropValue.lit loc)]⟩,
   ⟨ "sa", "azure-native:storage:StorageAccount",
      [( "resource_group_name", PropValue.ref "resource_group" "name"),
       ( "location", PropValue.ref "resource_group" "location"),
       ( "sku.name", PropValue.lit "Standard_LRS"),
       ( "kind", PropValue.lit "StorageV2")]⟩,
   ⟨ "staticWebsite", "azure-native:storage:StorageAccountStaticWebsite",
      [( "account_name", PropValue.ref "sa" "name"),
       ( "resource_group_name", PropValue.ref "resource_group" "name"),
       ( "index_document", PropValue.lit "index.html")]⟩,
   ⟨ "index.html", "azure-native:storage:Blob",
      [( "resource_group_name", PropValue.ref "resource_group" "name"),
       ( "account_name", PropValue.ref "sa" "name"),
       ( "container_name", PropValue.lit "$web"),
       ( "source", PropValue.lit "index.html"),
       ( "content_type", PropValue.lit "text/html")]⟩,
   ⟨ "myVNet", "azure-native:network:VirtualNetwork",
      [( "resource_group_name", PropValue.ref "resource_group" "name"),
       ( "location", PropValue.ref "resource_group" "location"),
       ( "address_space.address_prefixes.0", PropValue.lit "10.0.0.0/16")]⟩,
   ⟨ "mySubnet", "azure-native:network:Subnet",
      [( "resource_group_name", PropValue.ref "resource_group" "name"),
       ( "virtual_network_name", PropValue.ref "myVNet" "name"),
       ( "address_prefix", PropValue.lit "10.0.1.0/24")]⟩,
   ⟨ "myNIC", "azure-native:network:NetworkInterface",
      [( "resource_group_name", PropValue.ref "resource_group" "name"),
       ( "location", PropValue.ref "resource_group" "location"),
       ( "ip_configurations.0.name", PropValue.lit "ipconfig1"),
       ( "ip_configurations.0.subnet.id", PropValue.ref "mySubnet" "id"),
       ( "ip_configurations.0.private_ip_allocation_method",
          PropValue.lit "Dynamic")]⟩,
   ⟨ "myVM", "azure-native:compute:VirtualMachine",
      [( "resource_group_name", PropValue.ref "resource_group" "name"),
       ( "location", PropValue.ref "resource_group" "location"),
       ( "network_profile.network_interfaces.0.id", PropValue.ref "myNIC" "id"),
       ( "hardware_profile.vm_size", PropValue.lit "Standard_DS1_v2"),
       ( "os_profile.computer_name", PropValue.lit "myvm"),
       ( "os_profile.admin_username", PropValue.lit au),
       ( "os_profile.admin_password", PropValue.lit ap),
       ( "storage_profile.image_reference.publisher",
          PropValue.lit "Canonical"),
       ( "storage_profile.image_reference.offer", PropValue.lit "UbuntuServer"),
       ( "storage_profile.image_reference.sku", PropValue.lit "18.04-LTS"),
       ( "storage_profile.image_reference.version", PropValue.lit "latest"),
       ( "storage_profile.os_disk.name", PropValue.lit "myOSDisk"),
       ( "storage_profile.os_disk.caching", PropValue.lit "ReadWrite"),
       ( "storage_profile.os_disk.create_option", PropValue.lit "FromImage"),
       ( "storage_profile.os_disk.managed_disk.storage_account_type",
          PropValue.lit "Standard_LRS")]⟩,
   ⟨ "mySqlServer", "azure-native:sql:Server",
      [( "resource_group_name", PropValue.ref "resource_group" "name"),
       ( "location", PropValue.ref "resource_group" "location"),
       ( "server_name", PropValue.lit sn),
       ( "administrator_login", PropValue.lit su),
       ( "administrator_login_password", PropValue.lit sp),
       ( "version", PropValue.lit "12.0"),
       ( "public_network_access", PropValue.lit "Enabled")]⟩,
   ⟨ "mySqlDatabase", "azure-native:sql:Database",
      [( "resource_group_name", PropValue.ref "resource_group" "name"),
       ( "server_name", PropValue.ref "mySqlServer" "name"),
       ( "sku.name", PropValue.lit "S0"),
       ( "sku.tier", PropValue.lit "Standard")]⟩]

/-- C10: every resource the program declares other than the resource group
itself sets its `resource_group_name` property to a deferred reference to
the single resource group's `name` output, so all resources in the graph
belong to that one resource group. -/
theorem all_resources_in_resource_group (loc au ap su sp sn : String)
    (r : Resource) (hr : r ∈ programDecls loc au ap su sp sn)
    (hne : r.name ≠ "resource_group") :
    ( "resource_group_name", PropValue.ref "resource_group" "name") ∈
      r.props := by
  simp only [programDecls, List.mem_cons, List.mem_singleton] at hr
  rcases hr with rfl | rfl | rfl | rfl | rfl | rfl | rfl | rfl | rfl | rfl | h
  · exact absurd rfl hne
  · simp
  · simp
  · simp
  · simp
  · simp
  · simp
  · simp
  · simp
  · simp
  · cases h

theorem all_resources_in_resource_group_witness :
    ( "resource_group_name", PropValue.ref "resource_group" "name") ∈
      (Resource.mk "sa" "azure-native:storage:StorageAccount"
        [( "resource_group_name", PropValue.ref "resource_group" "name"),
         ( "location", PropValue.ref "resource_group" "location"),
         ( "sku.name", PropValue.lit "Standard_LRS"),
         ( "kind", PropValue.lit "StorageV2")]).props :=
  all_resources_in_resource_group "EastUS" "azureuser" "pw" "sqladminuser"
    "sqlpw" "srv" _ (by simp [programDecls]) (by decide)
